import Mathlib

/-!
Verification development for the plasmatorch signal-processing library.

The numerical kernels of `math.py` and `zeta.py` are embedded shallowly:
a tensor slice along the dimension an operation acts on is a vector
`Fin n → ℂ` (or `Fin n → ℝ` for real dtype), elementwise torch operations
are pointwise lifts, and torch's dtype dispatch (`x.is_complex()`) is a
sum type `PTensor`.  Machine floating point is idealised as `ℝ`/`ℂ`.
-/

open scoped Real

noncomputable section

/-- Embedding of `t.sigmoid` on a real scalar: `1 / (1 + exp (-x))`. -/
def sigmoidR (x : ℝ) : ℝ := 1 / (1 + Real.exp (-x))

/-- Embedding of `t.softmax(v, dim)` on the 1-dimensional slice along `dim`:
`exp (v k) / Σ_j exp (v j)`. -/
def softmaxT {n : ℕ} (v : Fin n → ℝ) : Fin n → ℝ :=
  fun k => Real.exp (v k) / ∑ j, Real.exp (v j)

/-- Embedding of the complex branch of `isoftmax` (`math.py` lines 47-57):
softmax of the magnitudes recombined with the input angles via
`view_as_complex(stack(softMag*cos(angle), softMag*sin(angle)))`. -/
def isoftmaxC {n : ℕ} (x : Fin n → ℂ) : Fin n → ℂ :=
  let angle : Fin n → ℝ := fun k => Complex.arg (x k)
  let magnitude : Fin n → ℝ := fun k => Complex.abs (x k)
  let softMagnitude : Fin n → ℝ := softmaxT magnitude
  let newReal : Fin n → ℝ := fun k => softMagnitude k * Real.cos (angle k)
  let newImag : Fin n → ℝ := fun k => softMagnitude k * Real.sin (angle k)
  fun k => ⟨newReal k, newImag k⟩

/-- Embedding of the complex branch of `isigmoid` (`math.py` lines 195-232).
The uint8 quadrant masks become 0/1 valued reals; `x.angle()` is
`Complex.arg`, `x.abs()` is `Complex.abs`. -/
def isigmoidC (x : ℂ) : ℂ :=
  let PI2 : ℝ := Real.pi / 2
  let ang : ℝ := Complex.arg x
  let xabs : ℝ := Complex.abs x
  let posQuad : ℝ := if 0 ≤ x.re ∧ 0 ≤ x.im then 1 else 0
  let negQuad : ℝ := if x.re < 0 ∧ x.im < 0 then 1 else 0
  let examineQuadRight : Prop := 0 ≤ x.re ∧ x.im < 0
  let examineQuadLeft : Prop := 0 ≤ x.im ∧ x.re < 0
  let examineQuad : ℝ := if examineQuadLeft ∧ examineQuadRight then 1 else 0
  let posVal : ℝ := posQuad * sigmoidR (posQuad * xabs)
  let negVal : ℝ := negQuad * sigmoidR (negQuad * (-xabs))
  let rotScalar : ℝ := Real.cos
    (((if examineQuadLeft then (1:ℝ) else 0) * (ang - PI2) * 2)
      + ((if examineQuadRight then (1:ℝ) else 0) * (ang + PI2) * 2))
  let examVal : ℝ := examineQuad * sigmoidR (examineQuad * rotScalar * xabs)
  let finalSigmoidMag : ℝ := posVal + negVal + examVal
  let xabs_e : ℂ := ⟨|x.re|, |x.im|⟩
  let sigmoidComplexVal : ℂ := xabs_e / (xabs : ℂ)
  (finalSigmoidMag : ℂ) * sigmoidComplexVal

/-- Embedding of the constant `i()` (`math.py` lines 36-39). -/
def iconst : ℂ := Complex.I

/-- Embedding of the complex branch of `icos` (`math.py` line 241):
`t.cos(x.abs()) * t.exp(i() * 2. * x.angle())`. -/
def icosC (x : ℂ) : ℂ :=
  (Real.cos (Complex.abs x) : ℂ) * Complex.exp (iconst * 2 * (Complex.arg x : ℂ))

/-- Embedding of the complex branch of `isin` (`math.py` line 250):
`t.sin(x.abs()) * t.exp(i() * x.angle())`. -/
def isinC (x : ℂ) : ℂ :=
  (Real.sin (Complex.abs x) : ℂ) * Complex.exp (iconst * (Complex.arg x : ℂ))

/-- A 1-dimensional tensor slice with its dtype: torch tensors carry either a
real or a complex dtype, and the kernels dispatch on `x.is_complex()`. -/
inductive PTensor (n : ℕ) where
  | realT (v : Fin n → ℝ)
  | complexT (v : Fin n → ℂ)

/-- Embedding of `t.Tensor.is_complex`. -/
def PTensor.is_complex {n : ℕ} : PTensor n → Bool
  | .realT _ => false
  | .complexT _ => true

/-- Element access `x[k]`, with a real tensor's element injected into `ℂ`
so elements of either dtype can be compared uniformly. -/
def PTensor.getC {n : ℕ} : PTensor n → Fin n → ℂ
  | .realT v, k => (v k : ℂ)
  | .complexT v, k => v k

/-- Embedding of `isoftmax` (`math.py` lines 42-57) including the dtype
dispatch: a real input takes the `t.softmax` early return, a complex input
takes the polar-decomposition branch. -/
def isoftmax {n : ℕ} (x : PTensor n) : PTensor n :=
  match x with
  | .realT v => .realT (softmaxT v)
  | .complexT v => .complexT (isoftmaxC v)

/-- Embedding of `isigmoid` (`math.py` lines 190-232) including the dtype
dispatch: a real input takes the `t.sigmoid` early return. -/
def isigmoid {n : ℕ} (x : PTensor n) : PTensor n :=
  match x with
  | .realT v => .realT (fun k => sigmoidR (v k))
  | .complexT v => .complexT (fun k => isigmoidC (v k))

/-- Embedding of `icos` (`math.py` lines 235-241) including the dtype
dispatch: a real input takes the `t.cos` early return. -/
def icos {n : ℕ} (x : PTensor n) : PTensor n :=
  match x with
  | .realT v => .realT (fun k => Real.cos (v k))
  | .complexT v => .complexT (fun k => icosC (v k))

/-- Embedding of `isin` (`math.py` lines 244-250) including the dtype
dispatch: a real input takes the `t.sin` early return. -/
def isin {n : ℕ} (x : PTensor n) : PTensor n :=
  match x with
  | .realT v => .realT (fun k => Real.sin (v k))
  | .complexT v => .complexT (fun k => isinC (v k))

/-- `isigmoid` on a size-1 (scalar) tensor, dispatching on the dtype of the
argument exactly as the source does: `zeta.py` computes
`epsig = isigmoid(res)` where `res` may carry a real or complex dtype. -/
def isigmoidScalar (resIsComplex : Bool) (res : ℂ) : ℂ :=
  if resIsComplex then isigmoidC res else (sigmoidR res.re : ℂ)

/-- Embedding of `__hzetaitr` (`zeta.py` lines 12-25): `t.pow(n + a, -s)`,
elementwise on one element of `s` and `a`. -/
def hzetaitr (s a : ℂ) (n : ℕ) : ℂ := ((n : ℂ) + a) ^ (-s)

/-- Embedding of `__lerchitr` (`zeta.py` lines 98-108).  `lamIsComplex`
records the dtype test `t.is_complex(lam)` on which the source branches. -/
def lerchitr (lamIsComplex : Bool) (lam s a : ℂ) (n : ℕ) : ℂ :=
  let hzetaexp : ℂ := 2 * (Real.pi : ℂ) * (n : ℂ) * lam
  let hzetaexp : ℂ :=
    if lamIsComplex then (Complex.abs hzetaexp : ℂ) * (lam / (Complex.abs lam : ℂ))
    else hzetaexp
  Complex.exp (hzetaexp * iconst) * hzetaitr s a n

/-- The common convergence loop of `hzetae` (`zeta.py` lines 56-70) and
`lerche` (`zeta.py` lines 119-133), parameterised by the per-iteration term
`deltaF` (which receives the `keepGoing` mask, since both loops premultiply
their tensor arguments by it).  `keepGoing` is the int64 tensor
`(result.abs() >= aeps.abs()).type(t.int64)`; the `while` condition is
`torch.all(keepGoing) and idx < maxiter`.  The loop is embedded with
explicit fuel (instantiated to `maxiter` at the top level); the second
component of the value counts the executed loop-body iterations. -/
def convergeGo {n : ℕ} (deltaF : ℕ → (Fin n → ℤ) → Fin n → ℂ) (epsig : ℂ)
    (aeps : ℝ) (maxiter : ℕ) : (Fin n → ℂ) → ℕ → ℕ → ((Fin n → ℂ) × ℕ)
  | result, _, 0 => (result, 0)
  | result, idx, fuel + 1 =>
    let keepGoing : Fin n → ℤ := fun k => if |aeps| ≤ Complex.abs (result k) then 1 else 0
    if (∀ k, keepGoing k = 1) ∧ idx < maxiter then
      let delta := deltaF idx keepGoing
      let result' : Fin n → ℂ := fun k =>
        (keepGoing k : ℂ) * (delta k + epsig * result k)
          + ((1 : ℂ) - (keepGoing k : ℂ)) * result k
      let rest := convergeGo deltaF epsig aeps maxiter result' (idx + 1) fuel
      (rest.1, rest.2 + 1)
    else (result, 0)

/-- Embedding of `hzetae` (`zeta.py` lines 27-70), elementwise on the
flattened tensor slice.  `res` is the scalar residual tensor piped through
`isigmoid`. -/
def hzetae {n : ℕ} (s a : Fin n → ℂ) (resIsComplex : Bool) (res : ℂ)
    (aeps : ℝ) (maxiter : ℕ) : Fin n → ℂ :=
  let epsig := isigmoidScalar resIsComplex res
  let delta : Fin n → ℂ := fun k => hzetaitr (s k) (a k) 0
  let result : Fin n → ℂ := fun k => 1 * delta k
  (convergeGo (fun idx kg k => hzetaitr (s k * (kg k : ℂ)) (a k) idx)
    epsig aeps maxiter result 1 maxiter).1

/-- Embedding of `lerche` (`zeta.py` lines 111-133), elementwise on the
flattened tensor slice. -/
def lerche {n : ℕ} (lamIsComplex : Bool) (lam s a : Fin n → ℂ)
    (resIsComplex : Bool) (res : ℂ) (aeps : ℝ) (maxiter : ℕ) : Fin n → ℂ :=
  let epsig := isigmoidScalar resIsComplex res
  let delta : Fin n → ℂ := fun k => lerchitr lamIsComplex (lam k) (s k) (a k) 0
  let result : Fin n → ℂ := fun k => 1 * delta k
  (convergeGo (fun idx kg k =>
      lerchitr lamIsComplex (lam k * (kg k : ℂ)) (s k * (kg k : ℂ)) (a k) idx)
    epsig aeps maxiter result 1 maxiter).1

/-- Claim-side description of channel 0 of `hzetas`: `(0 + a)^(-s)`
accumulated with `m` further terms `(n + a)^(-s)`, each previous value
weighted in by `epsig = isigmoid(res)`. -/
def hzetasCh0 (s a epsig : ℂ) : ℕ → ℂ
  | 0 => hzetaitr s a 0
  | m + 1 => hzetaitr s a (m + 1) + epsig * hzetasCh0 s a epsig m

/-- Embedding of the channel data written by `hzetas` (`zeta.py` lines
73-96) with `fftformat=False`, for one element of `s`/`a`: the trailing
`samples`-sized dimension as a map from channel index to value.  The
tensor starts as the zeros produced by the matmul allocation; the writes
`result[..., j] = v` become `Function.update`; the running `idx` counter
is threaded through the blank-sample loop exactly as in the source. -/
def hzetasData (s a epsig : ℂ) (blankSamples samples : ℕ) : ℕ → ℂ :=
  let result : ℕ → ℂ := fun _ => 0
  let result := Function.update result 0 (hzetaitr s a 0)
  let p := (List.range blankSamples).foldl
    (fun (p : (ℕ → ℂ) × ℕ) _ =>
      (Function.update p.1 0 (hzetaitr s a p.2 + epsig * p.1 0), p.2 + 1))
    (result, 1)
  (List.range (samples - 1)).foldl
    (fun r j =>
      Function.update r (j + 1) (hzetaitr s a (p.2 + (j + 1)) + epsig * r ((j + 1) - 1)))
    p.1

end

/-- Shape of `x.unsqueeze(-1)`: a trailing dimension of extent 1. -/
def unsqueezeLastShape (sh : List ℕ) : List ℕ := sh ++ [1]

/-- Shape of `lhs @ rhs` where `rhs` is a 2-D `(k, m)` tensor, following
torch matmul semantics: a 1-D `lhs` contracts its only dimension, an N-D
`lhs` batch-matmuls over its trailing dimension.  `none` models a shape
error. -/
def matmul2Shape (lhs : List ℕ) (k m : ℕ) : Option (List ℕ) :=
  match lhs with
  | [] => none
  | [kl] => if kl = k then some [m] else none
  | _ :: _ :: _ =>
    if lhs.getLast? = some k then some (lhs.dropLast ++ [m]) else none

/-- Result shape of the `hzetas` output allocation
`s.unsqueeze(-1) @ t.zeros((1, samples))` (`zeta.py` line 75). -/
def hzetasShape (sShape : List ℕ) (samples : ℕ) : Option (List ℕ) :=
  matmul2Shape (unsqueezeLastShape sShape) 1 samples

/-- A torch tensor abstracted to its shape, for the `Turbulence.forward`
argument check. -/
structure TorchTensor where
  shape : List ℕ

/-- The Python exception kinds distinguished by the error-handling claims. -/
inductive PyError where
  | assertionError
  | typeError
  | indexError
deriving DecidableEq

/-- Embedding of the head of `Turbulence.forward` (`attention.py` lines
50-52): `inputSize = queries.size(); assert states.size() == inputSize`.
The body past the assertion composes modules the spec excludes from its
scope (`Knot`, `Entangle`); modelled from the spec: it is "a single
composed forward pass", represented here by the opaque successful value
`()` reached only when the assertion passes. -/
def Turbulence.forward (queries states : TorchTensor) : Except PyError Unit :=
  let inputSize := queries.shape
  if states.shape = inputSize then Except.ok () else Except.error .assertionError

/-- Parameter and keyword names appearing in the modelled Python calls. -/
inductive PyParam where
  | x
  | dim
deriving DecidableEq

/-- The parameter list of `isigmoid`, from its definition
`def isigmoid(x:t.Tensor)` (`math.py` line 190): the sole parameter `x`. -/
def isigmoid_params : List PyParam := [.x]

/-- Python call binding, restricted to the check that decides the
error-handling claim: a keyword argument naming no parameter of the callee
raises `TypeError` before the callee body runs. -/
def callBind (params : List PyParam) (kwargs : List PyParam) : Except PyError Unit :=
  if kwargs.all (fun kw => params.contains kw) then .ok () else .error .typeError

/-- Embedding of the first statement of `PolarLens.__forward__`
(`plasmatorch/lens.py` line 73): the call `isigmoid(self.lensBasis, dim=-1)`
passes the keyword argument `dim` to `isigmoid`, whatever the input
tensor is. -/
def polarLensForwardFirstCall : Except PyError Unit :=
  callBind isigmoid_params [.dim]

/-- Names of the torch operations invoked by the numerical transforms; the
value functions behind them are universally quantified in the purity
claim, which is decided only by which store entries get written. -/
inductive TOp where
  | softmax
  | angle
  | tAbs
  | tCos
  | tSin
  | sigmoid
  | tExp
  | tPow
  | tMul
  | tAdd
  | tSub
  | tDiv
  | tSign
  | stack
  | viewAsComplex
  | cat
  | sortVals
  | maxRed
  | minRed
  | minOther
  | tSqrt
  | onesLike
  | typeCast
  | cmpGe
  | cmpGt
  | cmpLt
  | logicAnd
  | toComplexOp
  | realPart
  | imagPart
  | piOp
  | hzetaA
  | lerchA
  | padDim
  | weightedResample
  | resampleContinuous
  | matmulZeros

/-- A reference-semantics model of the torch tensor heap: tensors live at
indices of a store; out-of-place torch operations allocate fresh entries;
in-place operations (`mul_`, `div_`, indexed assignment) overwrite an
existing entry.  Tensor values are abstract (`TVal`). -/
structure Store (TVal : Type) where
  mem : ℕ → TVal
  len : ℕ

/-- Read the tensor at reference `r`. -/
def Store.read {TVal} (σ : Store TVal) (r : ℕ) : TVal := σ.mem r

/-- Allocate a fresh tensor holding `v`, returning its reference. -/
def Store.alloc {TVal} (σ : Store TVal) (v : TVal) : Store TVal × ℕ :=
  (⟨Function.update σ.mem σ.len v, σ.len + 1⟩, σ.len)

/-- Overwrite the tensor at reference `r`: an in-place torch operation. -/
def Store.write {TVal} (σ : Store TVal) (r : ℕ) (v : TVal) : Store TVal :=
  ⟨Function.update σ.mem r v, σ.len⟩

/-- A deep embedding of the torch-level effect structure of a library
function: a program allocates fresh tensors, writes existing tensors in
place, branches on tensor contents, and finally returns a reference.
Each Python statement of the embedded sources maps to one constructor;
the tensor values are abstract and the value functions attached to the
steps are universally quantified in the purity claim. -/
inductive Prog (TVal : Type) where
  | ret (r : ℕ)
  | allocP (v : Store TVal → TVal) (k : ℕ → Prog TVal)
  | writeP (r : ℕ) (v : Store TVal → TVal) (k : Prog TVal)
  | queryP (q : Store TVal → Bool) (k : Bool → Prog TVal)

/-- Run a program against a store, returning the final store and the
returned reference. -/
def Prog.exec {TVal} : Prog TVal → Store TVal → Store TVal × ℕ
  | .ret r, σ => (σ, r)
  | .allocP v k, σ =>
    let p := σ.alloc (v σ)
    (k p.2).exec p.1
  | .writeP r v k, σ => k.exec (σ.write r (v σ))
  | .queryP q k, σ => (k (q σ)).exec σ

/-- Sequencing: run `p`, feed the reference it returns to `k`. -/
def Prog.bind {TVal} : Prog TVal → (ℕ → Prog TVal) → Prog TVal
  | .ret r, k => k r
  | .allocP v k', k => .allocP v (fun ref => (k' ref).bind k)
  | .writeP r v p, k => .writeP r v (p.bind k)
  | .queryP q k', k => .queryP q (fun b => (k' b).bind k)

/-- Every in-place write of the program targets a reference at or above
`n`; instantiated with the store size at entry, this says the program
mutates only tensors it created itself. -/
def GoodAbove {TVal} (n : ℕ) : Prog TVal → Prop
  | .ret _ => True
  | .allocP _ k => ∀ ref, n ≤ ref → GoodAbove n (k ref)
  | .writeP r _ p => n ≤ r ∧ GoodAbove n p
  | .queryP _ k => ∀ b, GoodAbove n (k b)

/-- `f` never disturbs tensors that existed before it ran: the store only
grows, and every pre-existing reference still reads the same value
(hence the same contents and shape). -/
def PreservesBelow {TVal : Type} (f : Store TVal → Store TVal × ℕ) : Prop :=
  ∀ σ : Store TVal, σ.len ≤ (f σ).1.len ∧ ∀ r, r < σ.len → (f σ).1.read r = σ.read r

/-- Effect structure of `isoftmax` (`math.py` lines 42-57): the dtype
query, then one allocation per statement in either branch; nothing is
written in place. -/
def isoftmaxProg {TVal} (ops : TOp → List TVal → TVal) (isC : TVal → Bool)
    (x : ℕ) (_dim : ℤ) : Prog TVal :=
  .queryP (fun σ => isC (σ.read x)) fun complex =>
    if complex then
      .allocP (fun σ => ops .angle [σ.read x]) fun ang =>
      .allocP (fun σ => ops .tAbs [σ.read x]) fun magnitude =>
      .allocP (fun σ => ops .softmax [σ.read magnitude]) fun softMagnitude =>
      .allocP (fun σ => ops .tMul [σ.read softMagnitude, ops .tCos [σ.read ang]]) fun newReal =>
      .allocP (fun σ => ops .tMul [σ.read softMagnitude, ops .tSin [σ.read ang]]) fun newImag =>
      .allocP (fun σ => ops .viewAsComplex [ops .stack [σ.read newReal, σ.read newImag]]) .ret
    else
      .allocP (fun σ => ops .softmax [σ.read x]) .ret

/-- The `for dim in dims` loop of `nsoftmax` (`math.py` lines 68-70): each
step evaluates `isoftmax(x, dim)`, allocates `nroot = t.pow(..., exponent)`
and mutates only the internally created `result` via `result.mul_(nroot)`. -/
def nsoftmaxLoop {TVal} (ops : TOp → List TVal → TVal) (isC : TVal → Bool)
    (x result : ℕ) : List ℤ → Prog TVal
  | [] => .ret result
  | dim :: rest =>
    (isoftmaxProg ops isC x dim).bind fun iso =>
    .allocP (fun σ => ops .tPow [σ.read iso]) fun nroot =>
    .writeP result (fun σ => ops .tMul [σ.read result, σ.read nroot])
      (nsoftmaxLoop ops isC x result rest)

/-- Effect structure of `nsoftmax` (`math.py` lines 59-72):
`result = t.ones_like(x)` allocates, then the dimension loop runs. -/
def nsoftmaxProg {TVal} (ops : TOp → List TVal → TVal) (isC : TVal → Bool)
    (x : ℕ) (dims : List ℤ) : Prog TVal :=
  .allocP (fun σ => ops .onesLike [σ.read x]) fun result =>
  nsoftmaxLoop ops isC x result dims

/-- Effect structure of `isigmoid` (`math.py` lines 190-232): the dtype
query, then one allocation per statement of the complex branch (`PI2`,
`ang`, `xabs`, the quadrant masks, the branch values, `rotScalar`,
`finalSigmoidMag`, `xabs_e`, `sigmoidComplexVal` and the returned
product); no in-place call anywhere. -/
def isigmoidProg {TVal} (ops : TOp → List TVal → TVal) (isC : TVal → Bool)
    (x : ℕ) : Prog TVal :=
  .queryP (fun σ => isC (σ.read x)) fun complex =>
    if complex then
      .allocP (fun _ => ops .piOp []) fun _PI2 =>
      .allocP (fun σ => ops .angle [σ.read x]) fun ang =>
      .allocP (fun σ => ops .tAbs [σ.read x]) fun xabs =>
      .allocP (fun σ => ops .typeCast [ops .logicAnd [ops .cmpGe [σ.read x], ops .cmpGe [σ.read x]]]) fun posQuad =>
      .allocP (fun σ => ops .typeCast [ops .logicAnd [ops .cmpLt [σ.read x], ops .cmpLt [σ.read x]]]) fun negQuad =>
      .allocP (fun σ => ops .logicAnd [ops .cmpGe [σ.read x], ops .cmpLt [σ.read x]]) fun examineQuadRight =>
      .allocP (fun σ => ops .logicAnd [ops .cmpGe [σ.read x], ops .cmpLt [σ.read x]]) fun examineQuadLeft =>
      .allocP (fun σ => ops .typeCast [ops .logicAnd [σ.read examineQuadLeft, σ.read examineQuadRight]]) fun examineQuad =>
      .allocP (fun σ => ops .tMul [σ.read posQuad, ops .sigmoid [ops .tMul [σ.read posQuad, σ.read xabs]]]) fun posVal =>
      .allocP (fun σ => ops .tMul [σ.read negQuad, ops .sigmoid [ops .tMul [σ.read negQuad, σ.read xabs]]]) fun negVal =>
      .allocP (fun σ => ops .tCos [ops .tAdd [ops .tMul [σ.read examineQuadLeft, σ.read ang], ops .tMul [σ.read examineQuadRight, σ.read ang]]]) fun rotScalar =>
      .allocP (fun σ => ops .tMul [σ.read examineQuad, ops .sigmoid [ops .tMul [σ.read examineQuad, σ.read rotScalar, σ.read xabs]]]) fun examVal =>
      .allocP (fun σ => ops .tAdd [σ.read posVal, σ.read negVal, σ.read examVal]) fun finalSigmoidMag =>
      .allocP (fun σ => ops .viewAsComplex [ops .stack [ops .tAbs [σ.read x], ops .tAbs [σ.read x]]]) fun xabs_e =>
      .allocP (fun σ => ops .tDiv [σ.read xabs_e, σ.read xabs]) fun sigmoidComplexVal =>
      .allocP (fun σ => ops .tMul [σ.read finalSigmoidMag, σ.read sigmoidComplexVal]) .ret
    else
      .allocP (fun σ => ops .sigmoid [σ.read x]) .ret

/-- Effect structure of `icos` (`math.py` lines 235-241): a single
allocating return in either dtype branch. -/
def icosProg {TVal} (ops : TOp → List TVal → TVal) (isC : TVal → Bool)
    (x : ℕ) : Prog TVal :=
  .queryP (fun σ => isC (σ.read x)) fun complex =>
    if complex then
      .allocP (fun σ => ops .tMul [ops .tCos [ops .tAbs [σ.read x]], ops .tExp [ops .angle [σ.read x]]]) .ret
    else
      .allocP (fun σ => ops .tCos [σ.read x]) .ret

/-- Effect structure of `isin` (`math.py` lines 244-250): a single
allocating return in either dtype branch. -/
def isinProg {TVal} (ops : TOp → List TVal → TVal) (isC : TVal → Bool)
    (x : ℕ) : Prog TVal :=
  .queryP (fun σ => isC (σ.read x)) fun complex =>
    if complex then
      .allocP (fun σ => ops .tMul [ops .tSin [ops .tAbs [σ.read x]], ops .tExp [ops .angle [σ.read x]]]) .ret
    else
      .allocP (fun σ => ops .tSin [σ.read x]) .ret

/-- Effect structure of `realprimishdist` (`math.py` lines 105-152): one
allocation per statement (the `gaussApprox` branches choose different
constants but allocate identically), and the single in-place call
`result.div_(totalDistance)` on the internally created `result`, executed
when `relative and not gaussApprox`. -/
def realprimishdistProg {TVal} (ops : TOp → List TVal → TVal)
    (x : ℕ) (relative gaussApprox : Bool) : Prog TVal :=
  .allocP (fun σ => ops .typeCast [ops .tDiv [ops .tSub [σ.read x]]]) fun iprimeGuessTop0 =>
  .allocP (fun σ => ops .typeCast [ops .tDiv [ops .tAdd [σ.read x]]]) fun iprimeGuessBot0 =>
  .allocP (fun σ => ops .stack [σ.read iprimeGuessTop0, ops .tAdd [σ.read iprimeGuessTop0]]) fun iprimeGuessTop =>
  .allocP (fun σ => ops .stack [σ.read iprimeGuessBot0, ops .tAdd [σ.read iprimeGuessBot0]]) fun iprimeGuessBot =>
  .allocP (fun σ => ops .tAdd [ops .tMul [σ.read iprimeGuessTop]]) fun primishTop =>
  .allocP (fun σ => ops .tSub [ops .tMul [σ.read iprimeGuessBot]]) fun primishBot =>
  .allocP (fun σ => ops .cat [σ.read primishTop, σ.read primishBot]) fun primish0 =>
  .allocP (fun σ => ops .tMul [ops .onesLike [σ.read primish0]]) fun specialPrimes =>
  .allocP (fun σ => ops .cat [σ.read primish0, σ.read specialPrimes]) fun primish1 =>
  .allocP (fun σ => ops .sortVals [σ.read primish1]) fun primish =>
  .allocP (fun σ => ops .tMul [ops .onesLike [σ.read primish], σ.read x]) fun xish =>
  .allocP (fun σ => ops .typeCast [ops .cmpGe [σ.read xish, σ.read primish]]) fun lowidx =>
  .allocP (fun σ => ops .typeCast [ops .cmpLt [σ.read xish, σ.read primish]]) fun highidx =>
  .allocP (fun σ => ops .maxRed [ops .tAdd [ops .tMul [σ.read primish, σ.read lowidx], ops .tMul [σ.read lowidx, σ.read primish]]]) fun low =>
  .allocP (fun σ => ops .minRed [ops .tAdd [ops .tMul [σ.read primish, σ.read highidx], ops .tMul [σ.read highidx, σ.read primish]]]) fun high =>
  .allocP (fun σ => ops .tSub [σ.read x, σ.read low]) fun lowDist =>
  .allocP (fun σ => ops .tSub [σ.read high, σ.read x]) fun highDist =>
  .allocP (fun σ => ops .cmpLt [σ.read highDist, σ.read lowDist]) fun highLower =>
  .allocP (fun σ => ops .tAdd [ops .tMul [ops .typeCast [σ.read highLower], σ.read highDist], ops .tMul [ops .typeCast [σ.read highLower], σ.read lowDist]]) fun result =>
  if relative ∧ ¬gaussApprox then
    .allocP (fun σ => ops .tDiv [ops .tSub [σ.read high, σ.read low]]) fun totalDistance =>
    .writeP result (fun σ => ops .tDiv [σ.read result, σ.read totalDistance]) (.ret result)
  else
    .ret result

/-- Effect structure of `gaussianprimishdist` (`math.py` lines 155-181):
allocations plus three `realprimishdist` calls, each of which mutates only
its own internal accumulator. -/
def gaussianprimishdistProg {TVal} (ops : TOp → List TVal → TVal) (isC : TVal → Bool)
    (x : ℕ) (relative : Bool) : Prog TVal :=
  .queryP (fun σ => isC (σ.read x)) fun complex =>
  (if complex then Prog.ret x else Prog.allocP (fun σ => ops .toComplexOp [σ.read x]) Prog.ret).bind fun xc =>
  .allocP (fun σ => ops .realPart [σ.read xc]) fun real =>
  .allocP (fun σ => ops .imagPart [σ.read xc]) fun imag =>
  .allocP (fun σ => ops .tAdd [ops .tMul [σ.read real, σ.read real], ops .tMul [σ.read imag, σ.read imag]]) fun gauss =>
  (realprimishdistProg ops gauss relative false).bind fun gdraw =>
  .allocP (fun σ => ops .tSqrt [σ.read gdraw]) fun gaussdist =>
  (realprimishdistProg ops real true true).bind fun rdgauss =>
  (realprimishdistProg ops imag true true).bind fun idgauss =>
  .allocP (fun σ => ops .tDiv [ops .tAbs [σ.read imag]]) fun rdgaussi =>
  .allocP (fun σ => ops .tDiv [ops .tAbs [σ.read real]]) fun idgaussi =>
  .allocP (fun σ => ops .tSqrt [ops .tAdd [ops .tMul [σ.read rdgauss, σ.read rdgauss], ops .tMul [σ.read rdgaussi, σ.read rdgaussi]]]) fun rdcomposite =>
  .allocP (fun σ => ops .tSqrt [ops .tAdd [ops .tMul [σ.read idgauss, σ.read idgauss], ops .tMul [σ.read idgaussi, σ.read idgaussi]]]) fun idcomposite =>
  .allocP (fun σ => ops .minOther [σ.read rdcomposite, σ.read idcomposite]) fun magnitudePerc =>
  .allocP (fun σ => ops .minOther [σ.read magnitudePerc, σ.read gaussdist]) .ret

/-- Effect structure of `iprimishdist` (`math.py` lines 183-187): the
dtype dispatch between the two distance kernels. -/
def iprimishdistProg {TVal} (ops : TOp → List TVal → TVal) (isC : TVal → Bool)
    (x : ℕ) (relative : Bool) : Prog TVal :=
  .queryP (fun σ => isC (σ.read x)) fun complex =>
    if complex then gaussianprimishdistProg ops isC x relative
    else realprimishdistProg ops x relative false

/-- Effect structure of the `hzetae`/`lerche` while loop (`zeta.py` lines
59-68 and 122-131): each iteration allocates a fresh `delta`, a fresh
`result` and a fresh `keepGoing` and rebinds the loop variables; no tensor
is ever written in place.  `deltaV` builds the per-term value from the
`keepGoing` reference (`__hzetaitr(s*keepGoing, a, idx)` respectively
`__lerchitr(lam*keepGoing, s*keepGoing, a, idx)`); `allC` is the
`torch.all` reduction of the mask. -/
def convergeProg {TVal} (ops : TOp → List TVal → TVal) (allC : TVal → Bool)
    (deltaV : ℕ → Store TVal → TVal) (epsig : ℕ) (maxiter : ℕ) :
    ℕ → ℕ → ℕ → ℕ → Prog TVal
  | result, _, _, 0 => .ret result
  | result, keepGoing, idx, fuel + 1 =>
    .queryP (fun σ => allC (σ.read keepGoing)) fun c =>
      if c = true ∧ idx < maxiter then
        .allocP (deltaV keepGoing) fun delta =>
        .allocP (fun σ => ops .tAdd
          [ops .tMul [σ.read keepGoing, ops .tAdd [σ.read delta, ops .tMul [σ.read epsig, σ.read result]]],
           ops .tMul [σ.read keepGoing, σ.read result]]) fun result' =>
        .allocP (fun σ => ops .typeCast [ops .cmpGe [σ.read result']]) fun keepGoing' =>
        convergeProg ops allC deltaV epsig maxiter result' keepGoing' (idx + 1) fuel
      else .ret result

/-- Effect structure of `hzetae` (`zeta.py` lines 27-70). -/
def hzetaeProg {TVal} (ops : TOp → List TVal → TVal) (isC allC : TVal → Bool)
    (s a res aeps : ℕ) (maxiter : ℕ) : Prog TVal :=
  (isigmoidProg ops isC res).bind fun epsig =>
  .allocP (fun σ => ops .hzetaA [σ.read s, σ.read a]) fun delta =>
  .allocP (fun σ => ops .tMul [ops .onesLike [σ.read delta], σ.read delta]) fun result =>
  .allocP (fun σ => ops .typeCast [ops .cmpGe [σ.read result, σ.read aeps]]) fun keepGoing =>
  convergeProg ops allC
    (fun kg σ => ops .hzetaA [ops .tMul [σ.read s, σ.read kg], σ.read a])
    epsig maxiter result keepGoing 1 maxiter

/-- Effect structure of `lerche` (`zeta.py` lines 111-133); it differs
from `hzetae` only in the per-term operation. -/
def lercheProg {TVal} (ops : TOp → List TVal → TVal) (isC allC : TVal → Bool)
    (lam s a res aeps : ℕ) (maxiter : ℕ) : Prog TVal :=
  (isigmoidProg ops isC res).bind fun epsig =>
  .allocP (fun σ => ops .lerchA [σ.read lam, σ.read s, σ.read a]) fun delta =>
  .allocP (fun σ => ops .tMul [ops .onesLike [σ.read delta], σ.read delta]) fun result =>
  .allocP (fun σ => ops .typeCast [ops .cmpGe [σ.read result, σ.read aeps]]) fun keepGoing =>
  convergeProg ops allC
    (fun kg σ => ops .lerchA [ops .tMul [σ.read lam, σ.read kg], ops .tMul [σ.read s, σ.read kg], σ.read a])
    epsig maxiter result keepGoing 1 maxiter

/-- The channel loops of `hzetas` (`zeta.py` lines 85-91): every step
writes in place to the internally created `result` tensor. -/
def hzetasChLoop {TVal} (ops : TOp → List TVal → TVal)
    (s a epsig result : ℕ) : ℕ → Prog TVal → Prog TVal
  | 0, k => k
  | m + 1, k =>
    .writeP result
      (fun σ => ops .tAdd [ops .hzetaA [σ.read s, σ.read a], ops .tMul [σ.read epsig, σ.read result]])
      (hzetasChLoop ops s a epsig result m k)

/-- Effect structure of `hzetas` (`zeta.py` lines 73-96): the output is
allocated by the matmul on line 75, every `result[..., j] = ...`
assignment writes that internal tensor in place, and the trailing
`resampleContinuous` (code outside `src`; modelled from the spec as a
plain out-of-place resampling transform) allocates. -/
def hzetasProg {TVal} (ops : TOp → List TVal → TVal) (isC : TVal → Bool)
    (s a res : ℕ) (blankSamples samples : ℕ) (fftformat : Bool) : Prog TVal :=
  .allocP (fun σ => ops .toComplexOp [ops .matmulZeros [σ.read s]]) fun result =>
  (isigmoidProg ops isC res).bind fun epsig =>
  .writeP result (fun σ => ops .hzetaA [σ.read s, σ.read a])
    (hzetasChLoop ops s a epsig result blankSamples
      (hzetasChLoop ops s a epsig result (samples - 1)
        (if fftformat then
          .allocP (fun σ => ops .resampleContinuous [σ.read result]) .ret
        else .ret result)))

/-- Effect structure of `lens` (`plasmatorch/lens.py` lines 10-28): pure
allocations throughout; `paddim` and `weightedResample` live outside `src`
and are modelled from the spec as plain out-of-place padding/resampling
transforms. -/
def lensProg {TVal} (ops : TOp → List TVal → TVal)
    (x lensT : ℕ) : Prog TVal :=
  .allocP (fun σ => ops .tDiv [ops .tAdd [σ.read lensT]]) fun lensSquish =>
  .allocP (fun σ => ops .typeCast [σ.read lensSquish]) fun lensCast =>
  .allocP (fun σ => ops .typeCast [ops .cmpGt [ops .tAbs [σ.read lensT]]]) fun lensClip =>
  .allocP (fun σ => ops .tSign [σ.read lensT]) fun lensSign =>
  .allocP (fun σ => ops .tSub [ops .tMul [ops .tSub [σ.read lensSquish, ops .tMul [σ.read lensCast, σ.read lensClip, σ.read lensSign]]]]) fun clippedIntrinsics =>
  .allocP (fun σ => ops .padDim [σ.read x]) fun xpad =>
  .allocP (fun σ => ops .tMul [σ.read clippedIntrinsics]) fun padIntrinsics =>
  .allocP (fun σ => ops .weightedResample [σ.read xpad, σ.read padIntrinsics]) .ret

/-! ## Theorems -/

/-- C1: the claim that every error of the public operations is a
shape-assertion failure or non-convergence fails on the code:
`PolarLens.__forward__` begins with `isigmoid(self.lensBasis, dim=-1)`,
and `isigmoid` has no parameter named `dim`, so the call raises a
`TypeError` (not an assertion failure) on every input. -/
theorem polarLens_forward_raises_typeError :
    polarLensForwardFirstCall = Except.error PyError.typeError ∧
      PyError.typeError ≠ PyError.assertionError := by
  exact ⟨rfl, by decide⟩

/-- C3: on real (non-complex) dtype tensors the custom activations take
their early returns and equal the standard real activations. -/
theorem activations_real_reduction (n : ℕ) (v : Fin n → ℝ) :
    isoftmax (.realT v) = .realT (softmaxT v) ∧
    isigmoid (.realT v) = .realT (fun k => sigmoidR (v k)) ∧
    icos (.realT v) = .realT (fun k => Real.cos (v k)) ∧
    isin (.realT v) = .realT (fun k => Real.sin (v k)) :=
  ⟨rfl, rfl, rfl, rfl⟩

/-- C6: `Turbulence.forward` raises the shape assertion exactly when
`states.size()` differs from `queries.size()`, and otherwise proceeds
past the assertion into the composed forward pass. -/
theorem turbulence_forward_shape_assert (queries states : TorchTensor) :
    (states.shape ≠ queries.shape →
      Turbulence.forward queries states = Except.error PyError.assertionError) ∧
    (states.shape = queries.shape →
      Turbulence.forward queries states = Except.ok ()) := by
  constructor <;> intro h <;> simp [Turbulence.forward, h]

/-- Witness for C6 at concrete shapes. -/
theorem turbulence_forward_shape_assert_witness :
    Turbulence.forward ⟨[2]⟩ ⟨[3]⟩ = Except.error PyError.assertionError ∧
    Turbulence.forward ⟨[2]⟩ ⟨[2]⟩ = Except.ok () :=
  ⟨(turbulence_forward_shape_assert ⟨[2]⟩ ⟨[3]⟩).1 (by decide),
   (turbulence_forward_shape_assert ⟨[2]⟩ ⟨[2]⟩).2 rfl⟩

/-- C9: at every element in a mixed-sign quadrant, `isigmoid` returns
exactly 0: `posQuad` and `negQuad` are both 0 there, and `examineQuad`
conjoins the two mutually exclusive conditions `examineQuadLeft` and
`examineQuadRight`, so it is always false and no sigmoid branch
contributes to the magnitude. -/
theorem isigmoid_mixed_quadrant_zero (x : ℂ)
    (h : (0 ≤ x.re ∧ x.im < 0) ∨ (x.re < 0 ∧ 0 ≤ x.im)) :
    isigmoidC x = 0 := by
  have hpos : ¬(0 ≤ x.re ∧ 0 ≤ x.im) := by
    rcases h with ⟨h1, h2⟩ | ⟨h1, h2⟩ <;> rintro ⟨a, b⟩ <;> linarith
  have hneg : ¬(x.re < 0 ∧ x.im < 0) := by
    rcases h with ⟨h1, h2⟩ | ⟨h1, h2⟩ <;> rintro ⟨a, b⟩ <;> linarith
  have hexam : ¬((0 ≤ x.im ∧ x.re < 0) ∧ (0 ≤ x.re ∧ x.im < 0)) := by
    rintro ⟨⟨a, b⟩, ⟨c, d⟩⟩
    linarith
  simp only [isigmoidC, if_neg hpos, if_neg hneg, if_neg hexam]
  push_cast
  ring

/-- Witness for C9 at the concrete mixed-quadrant input `1 - i`. -/
theorem isigmoid_mixed_quadrant_zero_witness :
    isigmoidC ⟨1, -1⟩ = 0 :=
  isigmoid_mixed_quadrant_zero ⟨1, -1⟩ (Or.inl ⟨by norm_num, by norm_num⟩)

/-- C8: the kernels `icos`, `isin` and `isigmoid` are elementwise: for two
tensors of the same shape and dtype that agree at index `k`, the outputs
agree at index `k`. -/
theorem kernels_elementwise (n : ℕ) (x y : PTensor n) (k : Fin n)
    (hdt : x.is_complex = y.is_complex) (hk : x.getC k = y.getC k) :
    (icos x).getC k = (icos y).getC k ∧
    (isin x).getC k = (isin y).getC k ∧
    (isigmoid x).getC k = (isigmoid y).getC k := by
  cases x with
  | realT v =>
    cases y with
    | realT w =>
      have hvw : v k = w k := by
        simp only [PTensor.getC, Complex.ofReal_inj] at hk
        exact hk
      simp [icos, isin, isigmoid, PTensor.getC, hvw]
    | complexT w => simp [PTensor.is_complex] at hdt
  | complexT v =>
    cases y with
    | realT w => simp [PTensor.is_complex] at hdt
    | complexT w =>
      have hvw : v k = w k := hk
      simp [icos, isin, isigmoid, PTensor.getC, hvw]

/-- Witness for C8 at a concrete pair of equal complex tensors. -/
theorem kernels_elementwise_witness :
    (icos (PTensor.complexT ![Complex.I])).getC 0
        = (icos (PTensor.complexT ![Complex.I])).getC 0 ∧
    (isin (PTensor.complexT ![Complex.I])).getC 0
        = (isin (PTensor.complexT ![Complex.I])).getC 0 ∧
    (isigmoid (PTensor.complexT ![Complex.I])).getC 0
        = (isigmoid (PTensor.complexT ![Complex.I])).getC 0 :=
  kernels_elementwise 1 (.complexT ![Complex.I]) (.complexT ![Complex.I]) 0 rfl rfl

/-- C2: on complex tensors `isoftmax` is the softmax on the polar
decomposition: every output magnitude is the softmax of the input
magnitudes along the dimension, and every output element of non-zero
magnitude keeps the angle of the corresponding input element. -/
theorem isoftmax_polar_decomposition (n : ℕ) (x : Fin n → ℂ) (k : Fin n) :
    Complex.abs (isoftmaxC x k) = softmaxT (fun j => Complex.abs (x j)) k ∧
    (Complex.abs (isoftmaxC x k) ≠ 0 →
      Complex.arg (isoftmaxC x k) = Complex.arg (x k)) := by
  set r : ℝ := softmaxT (fun j => Complex.abs (x j)) k with hr
  have hpos : 0 < r := by
    rw [hr]
    unfold softmaxT
    exact div_pos (Real.exp_pos _)
      (Finset.sum_pos (fun j _ => Real.exp_pos _) ⟨k, Finset.mem_univ k⟩)
  have hform : isoftmaxC x k =
      (r : ℂ) * ((Real.cos (Complex.arg (x k)) : ℂ) + (Real.sin (Complex.arg (x k)) : ℂ) * Complex.I) := by
    apply Complex.ext <;>
      simp [isoftmaxC, hr, Complex.mul_re, Complex.mul_im,
        Complex.cos_ofReal_re, Complex.sin_ofReal_re]
  rw [Complex.ofReal_cos, Complex.ofReal_sin] at hform
  constructor
  · rw [hform, map_mul, Complex.abs_ofReal, abs_of_pos hpos,
      Complex.abs_cos_add_sin_mul_I, mul_one]
  · intro _
    rw [hform]
    exact Complex.arg_mul_cos_add_sin_mul_I hpos (Complex.arg_mem_Ioc (x k))

/-- Witness for C2 at the concrete one-element tensor `[i]`. -/
theorem isoftmax_polar_decomposition_witness :
    Complex.arg (isoftmaxC ![Complex.I] 0) = Complex.arg (![Complex.I] 0) := by
  have h := isoftmax_polar_decomposition 1 ![Complex.I] 0
  apply h.2
  rw [h.1]
  have : 0 < softmaxT (fun j => Complex.abs (![Complex.I] j)) 0 :=
    div_pos (Real.exp_pos _)
      (Finset.sum_pos (fun j _ => Real.exp_pos _) ⟨0, Finset.mem_univ 0⟩)
  exact ne_of_gt this

/-- The convergence loop executes at most `maxiter - idx` body
iterations, whatever the fuel. -/
theorem convergeGo_count_le {n : ℕ} (deltaF : ℕ → (Fin n → ℤ) → Fin n → ℂ)
    (epsig : ℂ) (aeps : ℝ) (maxiter : ℕ) :
    ∀ (fuel : ℕ) (result : Fin n → ℂ) (idx : ℕ),
      (convergeGo deltaF epsig aeps maxiter result idx fuel).2 ≤ maxiter - idx := by
  intro fuel
  induction fuel with
  | zero => intro result idx; simp [convergeGo]
  | succ fuel ih =>
    intro result idx
    simp only [convergeGo]
    split
    next h =>
      obtain ⟨-, hidx⟩ := h
      refine le_trans (Nat.add_le_add_right (ih _ (idx + 1)) 1) ?_
      omega
    next => simp

/-- Fuel beyond `maxiter - idx` never changes the loop: the `idx < maxiter`
bound forces termination regardless of convergence. -/
theorem convergeGo_fuel_stable {n : ℕ} (deltaF : ℕ → (Fin n → ℤ) → Fin n → ℂ)
    (epsig : ℂ) (aeps : ℝ) (maxiter : ℕ) :
    ∀ (fuel : ℕ) (idx : ℕ) (result : Fin n → ℂ), maxiter - idx ≤ fuel →
      convergeGo deltaF epsig aeps maxiter result idx fuel =
        convergeGo deltaF epsig aeps maxiter result idx (maxiter - idx) := by
  intro fuel
  induction fuel with
  | zero =>
    intro idx result h
    rw [Nat.le_zero.mp h]
  | succ fuel ih =>
    intro idx result h
    rcases Nat.eq_zero_or_pos (maxiter - idx) with h0 | h0
    · have hidx : ¬ idx < maxiter := by omega
      rw [h0]
      simp only [convergeGo]
      rw [if_neg (fun hc => hidx hc.2)]
    · have hm : maxiter - idx = (maxiter - (idx + 1)) + 1 := by omega
      rw [hm]
      simp only [convergeGo]
      by_cases hc : (∀ k : Fin n,
          (if |aeps| ≤ Complex.abs (result k) then (1 : ℤ) else 0) = 1) ∧ idx < maxiter
      · simp only [if_pos hc]
        rw [ih (idx + 1) _ (by omega)]
      · simp only [if_neg hc]

/-- As soon as any element of the running result has magnitude below
`|aeps|`, the loop body never runs again: the partial accumulation is
returned unchanged. -/
theorem convergeGo_stop {n : ℕ} (deltaF : ℕ → (Fin n → ℤ) → Fin n → ℂ)
    (epsig : ℂ) (aeps : ℝ) (maxiter idx fuel : ℕ) (result : Fin n → ℂ)
    (h : ∃ k, Complex.abs (result k) < |aeps|) :
    convergeGo deltaF epsig aeps maxiter result idx fuel = (result, 0) := by
  obtain ⟨k0, hk0⟩ := h
  have hcond : ¬ ((∀ k : Fin n,
      (if |aeps| ≤ Complex.abs (result k) then (1 : ℤ) else 0) = 1) ∧ idx < maxiter) := by
    rintro ⟨hall, -⟩
    have h1 := hall k0
    rw [if_neg (not_le.mpr hk0)] at h1
    exact absurd h1 (by norm_num)
  cases fuel with
  | zero => rfl
  | succ fuel =>
    simp only [convergeGo]
    rw [if_neg hcond]

/-- C4: for every input, the convergence loops of `hzetae` and `lerche`
terminate: starting at `idx = 1` each executes at most `maxiter - 1` body
iterations, and any extra fuel beyond the `maxiter` the functions grant
their loops changes nothing, so each returns a result after boundedly many
iterations; non-convergence never iterates unboundedly.  The first
conjunct of each half ties the loop to the function itself. -/
theorem converge_loops_terminate (n : ℕ) (s a lam : Fin n → ℂ)
    (lamC resC : Bool) (res : ℂ) (aeps : ℝ) (maxiter extra : ℕ) :
    (hzetae s a resC res aeps maxiter =
      (convergeGo (fun idx kg k => hzetaitr (s k * (kg k : ℂ)) (a k) idx)
        (isigmoidScalar resC res) aeps maxiter
        (fun k => 1 * hzetaitr (s k) (a k) 0) 1 maxiter).1) ∧
    ((convergeGo (fun idx kg k => hzetaitr (s k * (kg k : ℂ)) (a k) idx)
        (isigmoidScalar resC res) aeps maxiter
        (fun k => 1 * hzetaitr (s k) (a k) 0) 1 maxiter).2 ≤ maxiter - 1) ∧
    (convergeGo (fun idx kg k => hzetaitr (s k * (kg k : ℂ)) (a k) idx)
        (isigmoidScalar resC res) aeps maxiter
        (fun k => 1 * hzetaitr (s k) (a k) 0) 1 (maxiter + extra) =
      convergeGo (fun idx kg k => hzetaitr (s k * (kg k : ℂ)) (a k) idx)
        (isigmoidScalar resC res) aeps maxiter
        (fun k => 1 * hzetaitr (s k) (a k) 0) 1 maxiter) ∧
    (lerche lamC lam s a resC res aeps maxiter =
      (convergeGo (fun idx kg k =>
          lerchitr lamC (lam k * (kg k : ℂ)) (s k * (kg k : ℂ)) (a k) idx)
        (isigmoidScalar resC res) aeps maxiter
        (fun k => 1 * lerchitr lamC (lam k) (s k) (a k) 0) 1 maxiter).1) ∧
    ((convergeGo (fun idx kg k =>
          lerchitr lamC (lam k * (kg k : ℂ)) (s k * (kg k : ℂ)) (a k) idx)
        (isigmoidScalar resC res) aeps maxiter
        (fun k => 1 * lerchitr lamC (lam k) (s k) (a k) 0) 1 maxiter).2 ≤ maxiter - 1) ∧
    (convergeGo (fun idx kg k =>
          lerchitr lamC (lam k * (kg k : ℂ)) (s k * (kg k : ℂ)) (a k) idx)
        (isigmoidScalar resC res) aeps maxiter
        (fun k => 1 * lerchitr lamC (lam k) (s k) (a k) 0) 1 (maxiter + extra) =
      convergeGo (fun idx kg k =>
          lerchitr lamC (lam k * (kg k : ℂ)) (s k * (kg k : ℂ)) (a k) idx)
        (isigmoidScalar resC res) aeps maxiter
        (fun k => 1 * lerchitr lamC (lam k) (s k) (a k) 0) 1 maxiter) := by
  refine ⟨rfl, convergeGo_count_le _ _ _ _ _ _ 1, ?_, rfl,
    convergeGo_count_le _ _ _ _ _ _ 1, ?_⟩ <;>
    rw [convergeGo_fuel_stable _ _ _ _ (maxiter + extra) 1 _ (by omega),
      convergeGo_fuel_stable _ _ _ _ maxiter 1 _ (by omega)]

/-- C10: the stopping condition of the `hzetae` and `lerche` loops is a
single global one (`torch.all(keepGoing)`), not per-element: as soon as
any one element's magnitude falls below `|aeps|`, every element stops
being updated and the shared partial accumulation is returned. -/
theorem converge_global_stop (n : ℕ) (s a lam : Fin n → ℂ) (lamC resC : Bool)
    (res : ℂ) (aeps : ℝ) (maxiter idx fuel : ℕ) (result : Fin n → ℂ)
    (h : ∃ k, Complex.abs (result k) < |aeps|) :
    convergeGo (fun idx kg k => hzetaitr (s k * (kg k : ℂ)) (a k) idx)
        (isigmoidScalar resC res) aeps maxiter result idx fuel = (result, 0) ∧
    convergeGo (fun idx kg k =>
          lerchitr lamC (lam k * (kg k : ℂ)) (s k * (kg k : ℂ)) (a k) idx)
        (isigmoidScalar resC res) aeps maxiter result idx fuel = (result, 0) :=
  ⟨convergeGo_stop _ _ _ _ _ _ _ h, convergeGo_stop _ _ _ _ _ _ _ h⟩

/-- Witness for C10: with a result element already below `aeps = 1`, both
loops return the accumulation untouched. -/
theorem converge_global_stop_witness :
    convergeGo (fun idx kg k =>
          hzetaitr ((fun _ : Fin 1 => (0:ℂ)) k * (kg k : ℂ)) ((fun _ : Fin 1 => (0:ℂ)) k) idx)
        (isigmoidScalar false 0) 1 7 (fun _ : Fin 1 => 0) 1 7 = ((fun _ : Fin 1 => 0), 0) ∧
    convergeGo (fun idx kg k =>
          lerchitr false ((fun _ : Fin 1 => (0:ℂ)) k * (kg k : ℂ))
            ((fun _ : Fin 1 => (0:ℂ)) k * (kg k : ℂ)) ((fun _ : Fin 1 => (0:ℂ)) k) idx)
        (isigmoidScalar false 0) 1 7 (fun _ : Fin 1 => 0) 1 7 = ((fun _ : Fin 1 => 0), 0) :=
  converge_global_stop 1 (fun _ => 0) (fun _ => 0) (fun _ => 0) false false 0 1 7 1 7
    (fun _ => 0) ⟨0, by simp⟩

/-- Batch matmul shape for a left operand of rank at least 2 whose
trailing dimension matches the contraction. -/
theorem matmul2Shape_snoc (x y : ℕ) (l : List ℕ) (k m : ℕ) :
    matmul2Shape (x :: y :: l ++ [k]) k m = some ((x :: y :: l) ++ [m]) := by
  have h1 : (x :: y :: l ++ [k]).getLast? = some k := by
    rw [show x :: y :: l ++ [k] = (x :: y :: l) ++ [k] by simp]
    exact List.getLast?_concat _
  have h2 : (x :: y :: l ++ [k]).dropLast = x :: y :: l := by
    rw [show x :: y :: l ++ [k] = (x :: y :: l) ++ [k] by simp]
    exact List.dropLast_concat
  simp only [matmul2Shape, h1, h2, if_pos]
  rfl

/-- The `hzetas` output allocation `s.unsqueeze(-1) @ t.zeros((1, samples))`
has shape `s.size() + (samples,)` under torch matmul semantics. -/
theorem hzetasShape_spec (sh : List ℕ) (samples : ℕ) :
    hzetasShape sh samples = some (sh ++ [samples]) := by
  cases sh with
  | nil => rfl
  | cons hd tl =>
    cases tl with
    | nil => rfl
    | cons hd2 tl2 => exact matmul2Shape_snoc hd hd2 tl2 1 samples

/-- The blank-sample loop of `hzetas` (`zeta.py` lines 85-87) accumulates
exactly the claimed channel-0 values and leaves `idx = m + 1`. -/
theorem hzetas_blank_fold (s a epsig : ℂ) (m : ℕ) :
    (List.range m).foldl
        (fun (p : (ℕ → ℂ) × ℕ) _ =>
          (Function.update p.1 0 (hzetaitr s a p.2 + epsig * p.1 0), p.2 + 1))
        (Function.update (fun _ => (0 : ℂ)) 0 (hzetaitr s a 0), 1)
      = (Function.update (fun _ => (0 : ℂ)) 0 (hzetasCh0 s a epsig m), m + 1) := by
  induction m with
  | zero => rfl
  | succ m ih =>
    rw [List.range_succ, List.foldl_append, ih]
    simp only [List.foldl_cons, List.foldl_nil, Function.update_same, Function.update_idem]
    simp only [hzetasCh0]

/-- The sample loop of `hzetas` (`zeta.py` lines 90-91) never writes
channel 0. -/
theorem hzetas_main_fold_lo (s a epsig : ℂ) (idx : ℕ) (m : ℕ) :
    ∀ r0 : ℕ → ℂ,
      ((List.range m).foldl
        (fun r j => Function.update r (j + 1)
          (hzetaitr s a (idx + (j + 1)) + epsig * r ((j + 1) - 1)))
        r0) 0 = r0 0 := by
  induction m with
  | zero => intro r0; rfl
  | succ m ih =>
    intro r0
    rw [List.range_succ, List.foldl_append]
    simp only [List.foldl_cons, List.foldl_nil]
    rw [Function.update_noteq (by omega : (0 : ℕ) ≠ m + 1)]
    exact ih r0

/-- Each channel written by the sample loop satisfies the residual
recurrence against the final tensor: channel `j + 1` holds the term at
`idx + (j + 1)` plus `epsig` times the final channel `j`. -/
theorem hzetas_main_fold_rec (s a epsig : ℂ) (idx : ℕ) :
    ∀ (m : ℕ) (r0 : ℕ → ℂ) (j : ℕ), j < m →
      ((List.range m).foldl
        (fun r j => Function.update r (j + 1)
          (hzetaitr s a (idx + (j + 1)) + epsig * r ((j + 1) - 1)))
        r0) (j + 1) =
        hzetaitr s a (idx + (j + 1)) +
          epsig * ((List.range m).foldl
            (fun r j => Function.update r (j + 1)
              (hzetaitr s a (idx + (j + 1)) + epsig * r ((j + 1) - 1)))
            r0) j := by
  intro m
  induction m with
  | zero => intro r0 j h; exact absurd h (Nat.not_lt_zero j)
  | succ m ih =>
    intro r0 j hj
    rw [List.range_succ, List.foldl_append]
    simp only [List.foldl_cons, List.foldl_nil]
    rcases Nat.lt_succ_iff_lt_or_eq.mp hj with hjm | hjm
    · rw [Function.update_noteq (by omega : j + 1 ≠ m + 1),
        Function.update_noteq (by omega : j ≠ m + 1)]
      exact ih r0 j hjm
    · subst hjm
      rw [Function.update_same, Function.update_noteq (by omega : j ≠ j + 1)]
      norm_num

/-- C5: with `fftformat=False` and `samples ≥ 1`, `hzetas` returns a
complex tensor of shape `s.size() + (samples,)`; channel 0 holds
`(0 + a)^(-s)` accumulated with `blankSamples` further terms each weighted
in by `isigmoid(res)`, and every channel `j ≥ 1` equals
`(blankSamples + 1 + j + a)^(-s) + isigmoid(res) * channel (j-1)`. -/
theorem hzetas_recurrence (s a : ℂ) (resC : Bool) (res : ℂ)
    (blankSamples samples : ℕ) (sh : List ℕ) (hs : 1 ≤ samples) :
    hzetasShape sh samples = some (sh ++ [samples]) ∧
    hzetasData s a (isigmoidScalar resC res) blankSamples samples 0 =
      hzetasCh0 s a (isigmoidScalar resC res) blankSamples ∧
    ∀ j, 1 ≤ j → j < samples →
      hzetasData s a (isigmoidScalar resC res) blankSamples samples j =
        hzetaitr s a (blankSamples + 1 + j) +
          isigmoidScalar resC res *
            hzetasData s a (isigmoidScalar resC res) blankSamples samples (j - 1) := by
  refine ⟨hzetasShape_spec sh samples, ?_, ?_⟩
  · simp only [hzetasData]
    rw [hzetas_blank_fold]
    dsimp only
    rw [hzetas_main_fold_lo s a (isigmoidScalar resC res) (blankSamples + 1) (samples - 1)]
    exact Function.update_same _ _ _
  · intro j hj1 hj2
    simp only [hzetasData]
    rw [hzetas_blank_fold]
    dsimp only
    have hj' : j - 1 < samples - 1 := by omega
    have hrw := hzetas_main_fold_rec s a (isigmoidScalar resC res) (blankSamples + 1)
      (samples - 1)
      (Function.update (fun _ => (0 : ℂ)) 0
        (hzetasCh0 s a (isigmoidScalar resC res) blankSamples))
      (j - 1) hj'
    have hj0 : (j - 1) + 1 = j := by omega
    rw [hj0] at hrw
    exact hrw

/-- Witness for C5 at `s = 2`, `a = 3`, one blank sample, two samples. -/
theorem hzetas_recurrence_witness :
    hzetasData 2 3 (isigmoidScalar false 0) 1 2 1 =
      hzetaitr 2 3 3 +
        isigmoidScalar false 0 * hzetasData 2 3 (isigmoidScalar false 0) 1 2 0 :=
  (hzetas_recurrence 2 3 false 0 1 2 [3] (by norm_num)).2.2 1 (le_refl 1) (by norm_num)

/-- Master frame lemma: a program whose writes all target references at or
above `n ≤ σ.len` grows the store and preserves every read below `n`. -/
theorem exec_preservesBelow {TVal : Type} :
    ∀ (p : Prog TVal) (n : ℕ) (σ : Store TVal), GoodAbove n p → n ≤ σ.len →
      σ.len ≤ (p.exec σ).1.len ∧ ∀ r, r < n → (p.exec σ).1.read r = σ.read r := by
  intro p
  induction p with
  | ret r =>
    intro n σ _ _
    exact ⟨le_refl _, fun r _ => rfl⟩
  | allocP v k ih =>
    intro n σ hg hn
    simp only [Prog.exec]
    have hgood : GoodAbove n (k (σ.alloc (v σ)).2) := hg σ.len hn
    have hlen : (σ.alloc (v σ)).1.len = σ.len + 1 := rfl
    have ih' := ih (σ.alloc (v σ)).2 n ((σ.alloc (v σ)).1) hgood (by omega)
    refine ⟨le_trans (by omega) ih'.1, fun r hr => ?_⟩
    rw [ih'.2 r hr]
    show (σ.alloc (v σ)).1.read r = σ.read r
    simp only [Store.alloc, Store.read]
    exact Function.update_noteq (by omega : r ≠ σ.len) _ _
  | writeP w v p ih =>
    intro n σ hg hn
    obtain ⟨hw, hgp⟩ := hg
    simp only [Prog.exec]
    have hlen : (σ.write w (v σ)).len = σ.len := rfl
    have ih' := ih n (σ.write w (v σ)) hgp (by omega)
    refine ⟨le_trans (le_of_eq hlen.symm) ih'.1, fun r hr => ?_⟩
    rw [ih'.2 r hr]
    show (σ.write w (v σ)).read r = σ.read r
    simp only [Store.write, Store.read]
    exact Function.update_noteq (by omega : r ≠ w) _ _
  | queryP q k ih =>
    intro n σ hg hn
    simp only [Prog.exec]
    exact ih (q σ) n σ (hg (q σ)) hn

/-- `GoodAbove` is closed under sequencing. -/
theorem goodAbove_bind {TVal : Type} (n : ℕ) :
    ∀ (p : Prog TVal) (k : ℕ → Prog TVal), GoodAbove n p →
      (∀ r, GoodAbove n (k r)) → GoodAbove n (p.bind k) := by
  intro p
  induction p with
  | ret r =>
    intro k _ hk
    exact hk r
  | allocP v k' ih =>
    intro k hp hk
    simp only [Prog.bind, GoodAbove] at hp ⊢
    intro ref href
    exact ih ref k (hp ref href) hk
  | writeP w v p ih =>
    intro k hp hk
    simp only [Prog.bind, GoodAbove] at hp ⊢
    exact ⟨hp.1, ih k hp.2 hk⟩
  | queryP q k' ih =>
    intro k hp hk
    simp only [Prog.bind, GoodAbove] at hp ⊢
    intro b
    exact ih b k (hp b) hk

/-- `isoftmax` performs no in-place writes. -/
theorem goodAbove_isoftmaxProg {TVal : Type} (ops : TOp → List TVal → TVal)
    (isC : TVal → Bool) (x : ℕ) (dim : ℤ) (n : ℕ) :
    GoodAbove n (isoftmaxProg ops isC x dim) := by
  simp only [isoftmaxProg, GoodAbove]
  intro b
  cases b <;> simp [GoodAbove]

/-- `isigmoid` performs no in-place writes. -/
theorem goodAbove_isigmoidProg {TVal : Type} (ops : TOp → List TVal → TVal)
    (isC : TVal → Bool) (x : ℕ) (n : ℕ) :
    GoodAbove n (isigmoidProg ops isC x) := by
  simp only [isigmoidProg, GoodAbove]
  intro b
  cases b <;> simp [GoodAbove]

/-- `icos` performs no in-place writes. -/
theorem goodAbove_icosProg {TVal : Type} (ops : TOp → List TVal → TVal)
    (isC : TVal → Bool) (x : ℕ) (n : ℕ) :
    GoodAbove n (icosProg ops isC x) := by
  simp only [icosProg, GoodAbove]
  intro b
  cases b <;> simp [GoodAbove]

/-- `isin` performs no in-place writes. -/
theorem goodAbove_isinProg {TVal : Type} (ops : TOp → List TVal → TVal)
    (isC : TVal → Bool) (x : ℕ) (n : ℕ) :
    GoodAbove n (isinProg ops isC x) := by
  simp only [isinProg, GoodAbove]
  intro b
  cases b <;> simp [GoodAbove]

/-- The `nsoftmax` dimension loop writes only the internal `result`. -/
theorem goodAbove_nsoftmaxLoop {TVal : Type} (ops : TOp → List TVal → TVal)
    (isC : TVal → Bool) (x result : ℕ) (n : ℕ) (hres : n ≤ result) :
    ∀ dims : List ℤ, GoodAbove n (nsoftmaxLoop ops isC x result dims) := by
  intro dims
  induction dims with
  | nil => simp [nsoftmaxLoop, GoodAbove]
  | cons dim rest ih =>
    simp only [nsoftmaxLoop]
    apply goodAbove_bind
    · exact goodAbove_isoftmaxProg ops isC x dim n
    · intro r
      simp only [GoodAbove]
      intro nroot _
      exact ⟨hres, ih⟩

/-- `nsoftmax` writes only its internally allocated `result`. -/
theorem goodAbove_nsoftmaxProg {TVal : Type} (ops : TOp → List TVal → TVal)
    (isC : TVal → Bool) (x : ℕ) (dims : List ℤ) (n : ℕ) :
    GoodAbove n (nsoftmaxProg ops isC x dims) := by
  simp only [nsoftmaxProg, GoodAbove]
  intro result hres
  exact goodAbove_nsoftmaxLoop ops isC x result n hres dims

/-- `realprimishdist` writes only its internally allocated `result`. -/
theorem goodAbove_realprimishdistProg {TVal : Type} (ops : TOp → List TVal → TVal)
    (x : ℕ) (relative gaussApprox : Bool) (n : ℕ) :
    GoodAbove n (realprimishdistProg ops x relative gaussApprox) := by
  simp only [realprimishdistProg, GoodAbove]
  intros
  split
  · simp only [GoodAbove]
    intros
    exact ⟨by assumption, trivial⟩
  · simp only [GoodAbove]

/-- `gaussianprimishdist` performs no in-place writes of its own; the three
`realprimishdist` calls write only their internal accumulators. -/
theorem goodAbove_gaussianprimishdistProg {TVal : Type} (ops : TOp → List TVal → TVal)
    (isC : TVal → Bool) (x : ℕ) (relative : Bool) (n : ℕ) :
    GoodAbove n (gaussianprimishdistProg ops isC x relative) := by
  simp only [gaussianprimishdistProg]
  rw [GoodAbove]
  intro b
  apply goodAbove_bind
  · cases b <;> simp [GoodAbove]
  · intro xc
    rw [GoodAbove]; intro r1 h1
    rw [GoodAbove]; intro r2 h2
    rw [GoodAbove]; intro r3 h3
    apply goodAbove_bind
    · exact goodAbove_realprimishdistProg ops r3 relative false n
    · intro gdraw
      rw [GoodAbove]; intro r4 h4
      apply goodAbove_bind
      · exact goodAbove_realprimishdistProg ops r1 true true n
      · intro rdgauss
        apply goodAbove_bind
        · exact goodAbove_realprimishdistProg ops r2 true true n
        · intro idgauss
          simp [GoodAbove]

/-- `iprimishdist` dispatches to the two distance kernels. -/
theorem goodAbove_iprimishdistProg {TVal : Type} (ops : TOp → List TVal → TVal)
    (isC : TVal → Bool) (x : ℕ) (relative : Bool) (n : ℕ) :
    GoodAbove n (iprimishdistProg ops isC x relative) := by
  simp only [iprimishdistProg, GoodAbove]
  intro b
  cases b
  · simp only [Bool.false_eq_true, if_false]
    exact goodAbove_realprimishdistProg ops x relative false n
  · simp only [if_true]
    exact goodAbove_gaussianprimishdistProg ops isC x relative n

/-- The `hzetae`/`lerche` loop allocates fresh tensors each iteration and
never writes in place. -/
theorem goodAbove_convergeProg {TVal : Type} (ops : TOp → List TVal → TVal)
    (allC : TVal → Bool) (deltaV : ℕ → Store TVal → TVal) (epsig maxiter n : ℕ) :
    ∀ (fuel result keepGoing idx : ℕ),
      GoodAbove n (convergeProg ops allC deltaV epsig maxiter result keepGoing idx fuel) := by
  intro fuel
  induction fuel with
  | zero => intro result keepGoing idx; simp [convergeProg, GoodAbove]
  | succ fuel ih =>
    intro result keepGoing idx
    simp only [convergeProg, GoodAbove]
    intro b
    split
    · simp only [GoodAbove]
      intro r1 h1 r2 h2 r3 h3
      exact ih r2 r3 (idx + 1)
    · simp [GoodAbove]

/-- `hzetae` writes nothing in place. -/
theorem goodAbove_hzetaeProg {TVal : Type} (ops : TOp → List TVal → TVal)
    (isC allC : TVal → Bool) (s a res aeps maxiter n : ℕ) :
    GoodAbove n (hzetaeProg ops isC allC s a res aeps maxiter) := by
  apply goodAbove_bind
  · exact goodAbove_isigmoidProg ops isC res n
  · intro epsig
    simp only [GoodAbove]
    intro r1 h1 r2 h2 r3 h3
    exact goodAbove_convergeProg ops allC _ epsig maxiter n maxiter r2 r3 1

/-- `lerche` writes nothing in place. -/
theorem goodAbove_lercheProg {TVal : Type} (ops : TOp → List TVal → TVal)
    (isC allC : TVal → Bool) (lam s a res aeps maxiter n : ℕ) :
    GoodAbove n (lercheProg ops isC allC lam s a res aeps maxiter) := by
  apply goodAbove_bind
  · exact goodAbove_isigmoidProg ops isC res n
  · intro epsig
    simp only [GoodAbove]
    intro r1 h1 r2 h2 r3 h3
    exact goodAbove_convergeProg ops allC _ epsig maxiter n maxiter r2 r3 1

/-- The `hzetas` channel loops write only the internal `result`. -/
theorem goodAbove_hzetasChLoop {TVal : Type} (ops : TOp → List TVal → TVal)
    (s a epsig result : ℕ) (n : ℕ) (hres : n ≤ result) :
    ∀ (m : ℕ) (k : Prog TVal), GoodAbove n k →
      GoodAbove n (hzetasChLoop ops s a epsig result m k) := by
  intro m
  induction m with
  | zero => intro k hk; exact hk
  | succ m ih =>
    intro k hk
    simp only [hzetasChLoop, GoodAbove]
    exact ⟨hres, ih k hk⟩

/-- `hzetas` writes only its internally allocated output tensor. -/
theorem goodAbove_hzetasProg {TVal : Type} (ops : TOp → List TVal → TVal)
    (isC : TVal → Bool) (s a res blankSamples samples : ℕ) (fftformat : Bool) (n : ℕ) :
    GoodAbove n (hzetasProg ops isC s a res blankSamples samples fftformat) := by
  simp only [hzetasProg]
  rw [GoodAbove]
  intro result hres
  apply goodAbove_bind
  · exact goodAbove_isigmoidProg ops isC res n
  · intro epsig
    rw [GoodAbove]
    refine ⟨hres, ?_⟩
    apply goodAbove_hzetasChLoop ops s a epsig result n hres
    apply goodAbove_hzetasChLoop ops s a epsig result n hres
    cases fftformat <;> simp [GoodAbove]

/-- `lens` performs no in-place writes. -/
theorem goodAbove_lensProg {TVal : Type} (ops : TOp → List TVal → TVal)
    (x lensT : ℕ) (n : ℕ) :
    GoodAbove n (lensProg ops x lensT) := by
  simp [lensProg, GoodAbove]

/-- C7: the numerical transforms are pure with respect to their arguments:
whatever values the torch operations compute, running `isoftmax`,
`nsoftmax`, `isigmoid`, `icos`, `isin`, `iprimishdist`, `hzetae`,
`hzetas`, `lerche` or `lens` only grows the tensor heap and leaves every
pre-existing tensor — in particular every argument — with unchanged
contents and shape: all in-place operations target internally created
tensors. -/
theorem transforms_pure (TVal : Type) (ops : TOp → List TVal → TVal)
    (isC allC : TVal → Bool) (x s a lam res aeps lensT : ℕ) (dim : ℤ)
    (dims : List ℤ) (relative fftformat : Bool)
    (blankSamples samples maxiter : ℕ) :
    PreservesBelow (isoftmaxProg ops isC x dim).exec ∧
    PreservesBelow (nsoftmaxProg ops isC x dims).exec ∧
    PreservesBelow (isigmoidProg ops isC x).exec ∧
    PreservesBelow (icosProg ops isC x).exec ∧
    PreservesBelow (isinProg ops isC x).exec ∧
    PreservesBelow (iprimishdistProg ops isC x relative).exec ∧
    PreservesBelow (hzetaeProg ops isC allC s a res aeps maxiter).exec ∧
    PreservesBelow (hzetasProg ops isC s a res blankSamples samples fftformat).exec ∧
    PreservesBelow (lercheProg ops isC allC lam s a res aeps maxiter).exec ∧
    PreservesBelow (lensProg ops x lensT).exec :=
  ⟨fun σ => exec_preservesBelow _ σ.len σ (goodAbove_isoftmaxProg ops isC x dim σ.len) (le_refl _),
   fun σ => exec_preservesBelow _ σ.len σ (goodAbove_nsoftmaxProg ops isC x dims σ.len) (le_refl _),
   fun σ => exec_preservesBelow _ σ.len σ (goodAbove_isigmoidProg ops isC x σ.len) (le_refl _),
   fun σ => exec_preservesBelow _ σ.len σ (goodAbove_icosProg ops isC x σ.len) (le_refl _),
   fun σ => exec_preservesBelow _ σ.len σ (goodAbove_isinProg ops isC x σ.len) (le_refl _),
   fun σ => exec_preservesBelow _ σ.len σ (goodAbove_iprimishdistProg ops isC x relative σ.len) (le_refl _),
   fun σ => exec_preservesBelow _ σ.len σ (goodAbove_hzetaeProg ops isC allC s a res aeps maxiter σ.len) (le_refl _),
   fun σ => exec_preservesBelow _ σ.len σ (goodAbove_hzetasProg ops isC s a res blankSamples samples fftformat σ.len) (le_refl _),
   fun σ => exec_preservesBelow _ σ.len σ (goodAbove_lercheProg ops isC allC lam s a res aeps maxiter σ.len) (le_refl _),
   fun σ => exec_preservesBelow _ σ.len σ (goodAbove_lensProg ops x lensT σ.len) (le_refl _)⟩

/-- Witness for C7: on a one-tensor heap whose entry 0 reads 7, running
`nsoftmax` (which does perform in-place `mul_` calls) and `hzetas` (which
assigns channels in place) leaves entry 0 reading 7. -/
theorem transforms_pure_witness :
    ((@nsoftmaxProg ℕ (fun _ _ => 0) (fun _ => true) 0 [0, 1]).exec
        ⟨fun i => i + 7, 1⟩).1.read 0 = 7 ∧
    ((@hzetasProg ℕ (fun _ _ => 0) (fun _ => true) 0 0 0 2 3 true).exec
        ⟨fun i => i + 7, 1⟩).1.read 0 = 7 := by
  have h := transforms_pure ℕ (fun _ _ => 0) (fun _ => true) (fun _ => true)
    0 0 0 0 0 0 0 0 [0, 1] true true 2 3 4
  constructor
  · rw [h.2.1 ⟨fun i => i + 7, 1⟩ |>.2 0 (by norm_num)]
    rfl
  · rw [h.2.2.2.2.2.2.2.1 ⟨fun i => i + 7, 1⟩ |>.2 0 (by norm_num)]
    rfl
